import Mathlib

set_option maxRecDepth 100000
set_option maxHeartbeats 2000000

/-!  Verification development for the wRVU calculation pipeline: the
     normalizer (clean_pacs_text), the line reconstructor
     (reconstruct_procedure_lines), the procedure matcher (fuzzy_match,
     try_generic_match, find_procedures_in_reconstructed_text) and the
     aggregator (calculate_wrvus).

     Modelling conventions: Python strings are lists of characters;
     Python float weights are exact rationals; Python dicts that are
     only iterated or looked up are association lists in insertion
     order; Python sets of words are duplicate-free lists with
     extensional comparison.  str.upper is modelled for ASCII and the
     Latin-1 letter block; regex word characters are modelled for
     ASCII. -/

/-- Characters of a string literal. -/
def chs (x : String) : List Char := x.data

/-- Python str.upper on one character, modelled for ASCII letters and
    the Latin-1 letters U+00E0 to U+00FE (except the division sign). -/
def pyUpper (c : Char) : Char :=
  if 'a' ≤ c ∧ c ≤ 'z' then Char.ofNat (c.toNat - 32)
  else if 0xE0 ≤ c.toNat ∧ c.toNat ≤ 0xFE ∧ c.toNat ≠ 0xF7 then Char.ofNat (c.toNat - 32)
  else c

/-- Python str.upper over a whole string. -/
def upperL (l : List Char) : List Char := l.map pyUpper

/-- Boolean prefix test: the first list starts the second. -/
def isPre : List Char → List Char → Bool
  | [], _ => true
  | _ :: _, [] => false
  | x :: xs, y :: ys => x = y && isPre xs ys

/-- Python substring containment (the `in` operator): needle occurs
    contiguously somewhere in hay. -/
def containsSub (needle : List Char) : List Char → Bool
  | [] => needle.isEmpty
  | c :: t => isPre needle (c :: t) || containsSub needle t

/-- Python str.replace: one left-to-right scan replacing every
    non-overlapping occurrence of o by n.  Written with explicit fuel
    (the initial length) so the kernel can evaluate it; the fuel is
    sufficient because every step consumes at least one character. -/
def replaceAllAux (o n : List Char) : Nat → List Char → List Char
  | _, [] => []
  | 0, st => st
  | fuel + 1, c :: rest =>
    if o ≠ [] ∧ isPre o (c :: rest) then
      n ++ replaceAllAux o n fuel (rest.drop (o.length - 1))
    else
      c :: replaceAllAux o n fuel rest

/-- Python str.replace (for the non-empty patterns used by the program). -/
def replaceAll (o n st : List Char) : List Char := replaceAllAux o n st.length st

/-- Whitespace, as stripped by Python str.strip and str.split. -/
def isWS (c : Char) : Bool := c.isWhitespace

/-- Python str.strip: remove whitespace from both ends. -/
def stripL (l : List Char) : List Char :=
  ((l.dropWhile isWS).reverse.dropWhile isWS).reverse

/-- Accumulator pass for maximal runs of characters satisfying p. -/
def runsByAux (p : Char → Bool) : List Char → List Char → List (List Char)
  | [], acc => if acc.isEmpty then [] else [acc.reverse]
  | c :: rest, acc =>
    if p c then runsByAux p rest (c :: acc)
    else if acc.isEmpty then runsByAux p rest []
    else acc.reverse :: runsByAux p rest []

/-- Maximal runs of characters satisfying p, in order. -/
def runsBy (p : Char → Bool) (l : List Char) : List (List Char) := runsByAux p l []

/-- Regex word characters: ASCII alphanumerics and underscore. -/
def isWordChar (c : Char) : Bool := c.isAlphanum || c = '_'

/-- The word set of a string: regex findall of word-character runs,
    deduplicated (Python set semantics as a duplicate-free list). -/
def wordSet (l : List Char) : List (List Char) := (runsBy isWordChar l).dedup

/-- Python str.split with no argument: maximal non-whitespace runs. -/
def splitParts (l : List Char) : List (List Char) := runsBy (fun c => !c.isWhitespace) l

/-- Number of whitespace-separated words (len of str.split). -/
def wordCountOf (l : List Char) : Nat := (splitParts l).length

/-- Set intersection of word sets (Python set.intersection). -/
def interW (a b : List (List Char)) : List (List Char) := a.filter (fun w => decide (w ∈ b))

/-- Set difference of word sets (Python set minus). -/
def diffW (a b : List (List Char)) : List (List Char) := a.filter (fun w => decide (w ∉ b))

/-- Extensional equality of word sets (Python set equality). -/
def eqSetW (a b : List (List Char)) : Bool :=
  a.all (fun w => decide (w ∈ b)) && b.all (fun w => decide (w ∈ a))

/-- A catalog entry: billing code and per-occurrence weight. -/
structure ProcEntry where
  cpt : List Char
  wrvu : ℚ
deriving DecidableEq

/-- Catalog constructor helper. -/
def mkE (nm cpt : String) (w : ℚ) : List Char × ProcEntry := (chs nm, ⟨chs cpt, w⟩)

/-- The built-in 2024 wRVU procedure catalog, in source (insertion) order. -/
def procedure_db : List (List Char × ProcEntry) := [
  mkE "US VENOUS LOWER EXTREMITY DUPLEX BILATERAL" "93971" 0.7,
  mkE "US VENOUS LOWER EXTREMITY DUPLEX" "93970" 0.45,
  mkE "VASCULAR VEINS LOWER EXTREMITY DUPLEX" "93970" 0.45,
  mkE "US RENAL KIDNEY" "76770" 0.58,
  mkE "US RENAL" "76770" 0.58,
  mkE "US OB LESS THAN 14 WEEKS" "76815" 0.85,
  mkE "US OB GREATER THAN 14 WEEKS" "76805" 0.99,
  mkE "US OB LESS THAN 14 WEEKS TRANSABDOMINAL" "76815" 0.85,
  mkE "US OB GREATER THAN 14 WEEKS TRANSABDOMINAL" "76805" 0.99,
  mkE "US OB FOLLOW UP PER FETUS" "76815" 0.85,
  mkE "US NON OB TRANSVAGINAL" "76830" 0.69,
  mkE "US OB TRANSVAGINAL" "76830" 0.69,
  mkE "US PARACENTESIS" "76942" 0.67,
  mkE "US BIOPSY" "76942" 0.67,
  mkE "US LEG RT VENOUS" "93970" 0.45,
  mkE "US LEG LT VENOUS" "93970" 0.45,
  mkE "US ABDOMEN LIMITED" "76705" 0.59,
  mkE "US LIMITED ABDOMEN" "76705" 0.59,
  mkE "US COMPLETE ABDOMEN" "76700" 0.81,
  mkE "US THYROID PARATHYROID NECK" "76536" 0.56,
  mkE "US SCROTUM AND TESTICLES" "76870" 0.64,
  mkE "US RETROPERITONEAL LIMITED" "76770" 0.58,
  mkE "US RETROPERITONEAL COMPLETE" "76770" 0.58,
  mkE "US PELVIS COMPLETE" "76856" 0.69,
  mkE "US PELVIS COMPLETE AND US NON OB TRANSVAGINAL" "76856" 0.69,
  mkE "US BREAST BILATERAL LIMITED" "76641" 0.69,
  mkE "CT ENTEROGRAPHY ABDOMEN AND PELVIS WITH CONTRAST" "74177" 1.82,
  mkE "CT ABDOMEN PELVIS WITH AND WITHOUT CONTRAST" "74178" 2.01,
  mkE "CT ABDOMEN PELVIS WITH CONTRAST" "74177" 1.82,
  mkE "CT ABDOMEN PELVIS WITHOUT CONTRAST" "74176" 1.74,
  mkE "CT PELVIS WITHOUT CONTRAST" "72192" 1.19,
  mkE "CT CHEST WITH CONTRAST" "71260" 1.24,
  mkE "CT CHEST WITHOUT CONTRAST" "71250" 1.02,
  mkE "CT CHEST HIGH RESOLUTION" "71250" 1.02,
  mkE "CT ANGIOGRAM CHEST PULMONARY EMBOLISM" "71275" 1.82,
  mkE "CT ANGIOGRAM CHEST ABDOMEN PELVIS" "74174" 2.2,
  mkE "CT ANGIOGRAM CHEST WITH AND OR WITHOUT CONTRAST" "71275" 1.82,
  mkE "CT ANGIOGRAM ABDOMINAL AORTA AND BILATERAL ILIOFEM" "74175" 1.82,
  mkE "CT ANGIOGRAM ABDOMEN WITH AND OR WITHOUT CONTRAST" "74174" 1.82,
  mkE "CT ANGIOGRAM HEAD WITH WO CONTRAST ACUTE STROKE" "70496" 1.75,
  mkE "CT ANGIOGRAM NECK WITH WO CONTRAST ACUTE STROKE" "70498" 1.75,
  mkE "CT HEAD WITHOUT CONTRAST" "70450" 0.85,
  mkE "CT HEAD WITHOUT CONTRAST ACUTE STROKE" "70450" 0.85,
  mkE "CT HEAD WITH AND WITHOUT CONTRAST" "70470" 1.27,
  mkE "CT LOWER EXTREMITY WITHOUT CONTRAST" "73700" 1.33,
  mkE "CT LOWER EXTREMITY WITHOUT CONTRAST LEFT" "73700" 1.33,
  mkE "CT UPPER EXTREMITY WITHOUT CONTRAST" "73200" 1.33,
  mkE "CT UPPER EXTREMITY WITHOUT CONTRAST RIGHT" "73200" 1.33,
  mkE "CT HEART CALCIUM SCORE WITHOUT CONTRAST" "75571" 0.58,
  mkE "CT ORBITS SELLA IAC WITHOUT CONTRAST" "70481" 1.13,
  mkE "CT ORBITS SELLA OR IAC WITHOUT CONTRAST" "70481" 1.13,
  mkE "CT MAXILLOFACIAL WITHOUT CONTRAST" "70486" 0.85,
  mkE "CT LUMBAR SPINE WITHOUT CONTRAST" "72131" 1.0,
  mkE "CT LUNG SCREEN PROTOCOL LOW DOSE INITIAL BASELINE" "71271" 1.02,
  mkE "CT C SPINE SPINE WO CON" "72125" 1.0,
  mkE "CT THORACIC SPINE WITHOUT CONTRAST" "72128" 1.0,
  mkE "CT SOFT TISSUE NECK WITH CONTRAST" "70491" 1.38,
  mkE "MRI ABDOMEN WITH AND WITHOUT CONTRAST" "74183" 2.27,
  mkE "MRI BRAIN WITH AND WITHOUT CONTRAST" "70554" 2.29,
  mkE "MRI BRAIN WITHOUT CONTRAST" "70551" 1.48,
  mkE "MRI LUMBAR SPINE WITHOUT CONTRAST" "72148" 1.48,
  mkE "MRI LUMBAR SPINE WITH AND WITHOUT CONTRAST" "72158" 2.29,
  mkE "MRI CERVICAL SPINE WITH AND WITHOUT CONTRAST" "72156" 2.29,
  mkE "MRI CERVICAL SPINE WITHOUT CONTRAST" "72141" 1.48,
  mkE "MRI THORACIC SPINE WITH AND WITHOUT CONTRAST" "72157" 2.29,
  mkE "MRI PELVIS WITHOUT CONTRAST" "72195" 1.46,
  mkE "MRI ANGIOGRAM HEAD WITH AND WITHOUT CONTRAST" "70544" 1.48,
  mkE "MRI HIP WITH AND WITHOUT CONTRAST RIGHT" "73722" 2.29,
  mkE "MRI HIP WITH AND WITHOUT CONTRAST LEFT" "73722" 2.29,
  mkE "MRI BREAST WITH AND WITHOUT CONTRAST BILATERAL" "77059" 2.4,
  mkE "MRI SHOULDER WITH AND WITHOUT CONTRAST LEFT" "73223" 2.29,
  mkE "MRI MRCP WITH AND WITHOUT CONTRAST" "74183" 2.27,
  mkE "MRI ANKLE WITHOUT CONTRAST RIGHT" "73721" 1.48,
  mkE "XR ANKLE MINIMUM 3 VIEWS" "73610" 0.22,
  mkE "XR ANKLE MINIMUM 3 VIEWS RIGHT" "73610" 0.22,
  mkE "XR ANKLE MINIMUM 3 VIEWS LEFT" "73610" 0.22,
  mkE "XR HIP 2 OR 3 VIEWS WITH OR WITHOUT PELVIS" "73521" 0.22,
  mkE "XR HIP 2 OR 3 VIEWS RIGHT WITH OR WITHOUT PELVIS" "73521" 0.22,
  mkE "XR HIP 2 VIEWS BILATERAL WITH OR WITHOUT PELVIS" "73521" 0.22,
  mkE "XR CHEST 1 VIEW" "71045" 0.18,
  mkE "XR CHEST 2 VIEWS" "71046" 0.22,
  mkE "XR ABDOMEN 1 VIEW" "74018" 0.18,
  mkE "XR ABDOMEN 2 VIEWS" "74019" 0.23,
  mkE "XR ABDOMEN 2 VIEWS COMPLETE" "74019" 0.23,
  mkE "XR LUMBAR SPINE 1 VIEW" "72100" 0.22,
  mkE "XR LUMBAR SPINE 2 OR 3 VIEWS" "72100" 0.22,
  mkE "XR LUMBAR SPINE MINIMUM 4 VIEWS" "72100" 0.22,
  mkE "XR CERVICAL SPINE 1 VIEW" "72040" 0.22,
  mkE "XR CERVICAL SPINE FLEXION AND EXTENSION VIEW ONLY" "72040" 0.22,
  mkE "XR C-SPINE 2 OR 3 VIEWS" "72040" 0.22,
  mkE "XR THORACIC SPINE 2 VIEWS" "72070" 0.22,
  mkE "XR SHOULDER MINIMUM 2 VIEWS" "73030" 0.22,
  mkE "XR SHOULDER MINIMUM 2 VIEWS RIGHT" "73030" 0.22,
  mkE "XR SHOULDER MINIMUM 2 VIEWS LEFT" "73030" 0.22,
  mkE "XR KNEE MINIMUM 2 VIEWS" "73560" 0.22,
  mkE "XR KNEE 2 VIEWS LEFT" "73560" 0.22,
  mkE "XR KNEE 2 VIEWS RIGHT" "73560" 0.22,
  mkE "XR KNEE 3 VIEWS RIGHT" "73560" 0.22,
  mkE "XR KNEE MINIMUM 4 VIEWS RIGHT" "73560" 0.22,
  mkE "XR FOOT MINIMUM 3 VIEWS LEFT" "73620" 0.22,
  mkE "XR FOOT MINIMUM 3 VIEWS RIGHT" "73620" 0.22,
  mkE "XR FOOT 2 VIEWS LEFT" "73620" 0.22,
  mkE "XR FOOT 2 VIEWS RIGHT" "73620" 0.22,
  mkE "XR ELBOW MINIMUM 3 VIEWS LEFT" "73070" 0.22,
  mkE "XR ELBOW MINIMUM 3 VIEWS RIGHT" "73070" 0.22,
  mkE "XR ELBOW 2 VIEWS RIGHT" "73070" 0.22,
  mkE "XR ELBOW 2 VIEWS LEFT" "73070" 0.22,
  mkE "XR PELVIS 1 OR 2 VIEWS" "72170" 0.22,
  mkE "XR FACIAL BONES 3 OR MORE VIEWS" "70140" 0.22,
  mkE "XR RIBS UNILAT LEFT AND PA CHEST MIN 3 VIEWS" "71100" 0.22,
  mkE "XR FEMUR 2 OR MORE VIEWS LEFT" "73550" 0.22,
  mkE "XR TOE 1ST LEFT" "73660" 0.22,
  mkE "XR HAND MINIMUM 3 VIEWS RIGHT" "73120" 0.22,
  mkE "XR FOREARM 2 VIEWS RIGHT" "73090" 0.22,
  mkE "XR WRIST MINIMUM 3 VIEWS LEFT" "73110" 0.22,
  mkE "XR WRIST MINIMUM 3 VIEWS RIGHT" "73110" 0.22,
  mkE "PET CT SKULL BASE TO MID THIGH INIT" "78815" 4.8,
  mkE "PET CT SKULL BASE TO MID THIGH SUBSEQUENT" "78815" 4.8,
  mkE "FL GUIDANCE VENOUS ACCESS" "77001" 0.25,
  mkE "FL ESOPHAGRAM COMPLETE" "74220" 0.85,
  mkE "FL ESOPHAGRAM SINGLE CONTRAST" "74220" 0.85,
  mkE "FL UPPER GI WITH SMALL BOWEL FOLLOW THROUGH" "74245" 1.25,
  mkE "FL RETROGRADE PYELOGRAM WITH AND WITHOUT KUB" "74420" 1.0,
  mkE "FL SWALLOW STUDY FOR SPEECH" "74230" 0.85,
  mkE "FLUORO GUIDANCE VENOUS ACCESS" "77001" 0.25,
  mkE "FLUORO ESOPHAGRAM COMPLETE" "74220" 0.85,
  mkE "FLUOROSCOPY GUIDED SPINAL INJECTION" "77003" 0.67,
  mkE "NM BONE SCAN 3 PHASE" "78320" 0.96,
  mkE "NM LUNG SCAN VENTILATION AND PERFUSION IMAGING" "78588" 1.4,
  mkE "NM LIVER SCAN STATIC ONLY" "78215" 0.74,
  mkE "NM GASTRIC EMPTYING STUDY" "78264" 1.0,
  mkE "NM HIDA SCAN" "78226" 0.96,
  mkE "IR EMBOLIZATION ARTERIAL" "37204" 3.2,
  mkE "IR KYPHOPLASTY LUMBAR" "22523" 2.8,
  mkE "THORACENTESIS" "32554" 1.2,
  mkE "PARACENTESIS" "49082" 1.0,
  mkE "DXA BONE DENSITY SPINE AND HIP" "77080" 0.17,
  mkE "MAMMO DIGITAL 3D SCREENING BILATERAL" "77067" 0.7,
  mkE "MAMMO DIGITAL 3D DIAGNOSTIC UNILATERAL LEFT" "77066" 0.7]

/-- The catalog key list, in insertion order. -/
def dbKeys : List (List Char) := procedure_db.map (fun e => e.1)

/-- Generic per-modality weights, in source order. -/
def generic_wrvus : List (List Char × ℚ) := [
  (chs "CT", 1.33),
  (chs "MRI", 1.80),
  (chs "XR", 0.25),
  (chs "US", 0.67),
  (chs "MAMMOGRAPHY", 0.7),
  (chs "MG", 0.7),
  (chs "PET", 4.0),
  (chs "NM", 0.85),
  (chs "FL", 0.85),
  (chs "ANGIO", 1.5),
  (chs "DXA", 0.32),
  (chs "IR", 2.5),
  (chs "PROCEDURE", 1.0),
  (chs "OTHER", 1.0)]

/-- Keys of the generic weight table. -/
def genericKeys : List (List Char) := generic_wrvus.map (fun e => e.1)

/-- The ordered replacement table of clean_pacs_text.  The em-dash
    entry is the three-character mojibake sequence that appears
    literally in the source file. -/
def replacements : List (List Char × List Char) := [
  (chs "CR ", chs "XR "), (chs "CR\t", chs "XR "),
  (chs "RF ", chs "FL "), (chs "RF\t", chs "FL "),
  (chs "XA ", chs "ANGIO "), (chs "XA\t", chs "ANGIO "),
  (chs "BD ", chs "DXA "), (chs "BD\t", chs "DXA "),
  (chs "PT ", chs "PET "), (chs "PT\t", chs "PET "),
  (chs "MR ", chs "MRI "), (chs "MR\t", chs "MRI "),
  (chs "DANGIO", chs "DXA"),
  (chs "MRIHIP", chs "MRI HIP"),
  (chs "\t", chs " "),
  (chs "_", chs " "),
  (chs "â€”", chs " "),
  (chs "-", chs " "),
  (chs "  ", chs " "),
  (chs "   ", chs " ")]

/-- The while-loop collapsing double spaces, with fuel equal to the
    string length (sufficient: each pass that fires strictly shrinks
    the string). -/
def collapseAux : Nat → List Char → List Char
  | 0, st => st
  | fuel + 1, st =>
    if containsSub (chs "  ") st then collapseAux fuel (replaceAll (chs "  ") (chs " ") st)
    else st

/-- The normalizer: upper-case, apply the replacement table in order,
    collapse double spaces, strip. -/
def clean_pacs_text (text : List Char) : List Char :=
  let up := upperL text
  let rep := replacements.foldl (fun st pr => replaceAll pr.1 pr.2 st) up
  stripL (collapseAux rep.length rep)

/-- Python str.isdigit (ASCII digits): nonempty and all digits. -/
def isDigitL (l : List Char) : Bool := !l.isEmpty && l.all Char.isDigit

/-- Tail of the date regex: hyphen, three word characters, hyphen,
    four digits (the regex is unanchored at the end). -/
def dateTail : List Char → Bool
  | c0 :: w1 :: w2 :: w3 :: c4 :: d1 :: d2 :: d3 :: d4 :: _ =>
    c0 = '-' && isWordChar w1 && isWordChar w2 && isWordChar w3 && c4 = '-' &&
    d1.isDigit && d2.isDigit && d3.isDigit && d4.isDigit
  | _ => false

/-- Date regex anchored at the head: one or two digits, then dateTail. -/
def dateAt : List Char → Bool
  | [] => false
  | c :: rest =>
    c.isDigit && (dateTail rest ||
      (match rest with
       | c2 :: rest2 => c2.isDigit && dateTail rest2
       | [] => false))

/-- Python re.search of the date pattern: some position matches. -/
def hasDate : List Char → Bool
  | [] => false
  | c :: t => dateAt (c :: t) || hasDate t

/-- Modality prefixes recognized by the reconstructor. -/
def recon_prefixes : List (List Char) :=
  [chs "US", chs "CT", chs "MR", chs "XR", chs "CR", chs "RF", chs "FL",
   chs "PT", chs "PET", chs "BD", chs "DXA", chs "NM", chs "IR"]

/-- re.match of the modality-prefix alternation on the upper-cased line. -/
def startsModality (l : List Char) : Bool := recon_prefixes.any (fun p => isPre p (upperL l))

/-- One step of the reconstruction state machine: state is the
    accumulator (current) and output so far. -/
def recon_step (st : List Char × List (List Char)) (line : List Char) :
    List Char × List (List Char) :=
  let current := st.1
  let out := st.2
  if line.length < 3 then (current, out)
  else if hasDate line then
    (if current ≠ [] then ([], out ++ [current ++ ' ' :: line]) else (current, out))
  else if isDigitL line then (current, out)
  else if startsModality line then
    (line, if current ≠ [] then out ++ [current] else out)
  else
    (if current ≠ [] then (current ++ ' ' :: line, out) else (line, out))

/-- Split on newline characters (str.splitlines for newline-separated
    text; blank segments are filtered away by the caller). -/
def splitNlAux : List Char → List Char → List (List Char)
  | [], acc => [acc.reverse]
  | c :: rest, acc =>
    if c = '\n' then acc.reverse :: splitNlAux rest []
    else splitNlAux rest (c :: acc)

def splitNl (t : List Char) : List (List Char) := splitNlAux t []

/-- The line reconstructor: strip raw lines, drop blanks, run the state
    machine, flush the final accumulator. -/
def reconstruct_procedure_lines (text : List Char) : List (List Char) :=
  let lines := ((splitNl text).map stripL).filter (fun l => decide (l ≠ []))
  let fin := lines.foldl recon_step ([], [])
  if fin.1 ≠ [] then fin.2 ++ [fin.1] else fin.2

/-- Modality alias table of the acceptance test (dict order). -/
def modality_mapping : List (List Char × List (List Char)) := [
  (chs "XR", [chs "XR"]), (chs "CT", [chs "CT"]),
  (chs "MRI", [chs "MRI", chs "MR"]), (chs "US", [chs "US"]),
  (chs "FL", [chs "FL"]), (chs "PET", [chs "PET"]),
  (chs "DXA", [chs "DXA"]), (chs "NM", [chs "NM"])]

/-- Anatomy vocabulary of the acceptance test. -/
def anatomy_words : List (List Char) :=
  [chs "CHEST", chs "ABDOMEN", chs "PELVIS", chs "HEAD", chs "BRAIN", chs "SPINE",
   chs "LUMBAR", chs "CERVICAL", chs "THORACIC", chs "KNEE", chs "ANKLE", chs "SHOULDER",
   chs "ELBOW", chs "HIP", chs "FOOT", chs "HAND", chs "WRIST", chs "NECK", chs "ORBIT"]

/-- Stop words removed before the coverage gate. -/
def common_words : List (List Char) :=
  [chs "AND", chs "OR", chs "THE", chs "OF", chs "IN", chs "ON", chs "AT",
   chs "TO", chs "FOR", chs "VIEW", chs "VIEWS"]

/-- Modality resolution loop of the acceptance test: scans the mapping
    in order; the last entry with a variant among the words wins. -/
def findModality (ws : List (List Char)) : Option (List Char) :=
  modality_mapping.foldl
    (fun acc mv => if mv.2.any (fun v => decide (v ∈ ws)) then some mv.1 else acc) none

/-- Contrast-status set derived from the words WITH / WITHOUT / WO. -/
def contrastOf (ws : List (List Char)) : List (List Char) :=
  (if decide (chs "WITH" ∈ ws) then [chs "WITH"] else []) ++
  (if decide (chs "WITHOUT" ∈ ws) ∨ decide (chs "WO" ∈ ws) then [chs "WITHOUT"] else [])

/-- The four sequential gates of the acceptance test (modality, anatomy,
    contrast, 90 percent coverage).  The float comparison
    matches/len < 0.9 is modelled exactly as 10*matches < 9*len. -/
def fuzzy_gates (pu lu : List Char) : Bool :=
  let pw := wordSet pu
  let lw := wordSet lu
  let pm := findModality pw
  let lm := findModality lw
  let pa := interW pw anatomy_words
  let la := interW lw anatomy_words
  let pc := contrastOf pw
  let lc := contrastOf lw
  let sp := diffW pw common_words
  let sl := diffW lw common_words
  if pm.isSome && lm.isSome && decide (pm ≠ lm) then false
  else if decide (pa ≠ []) && !eqSetW pa la then false
  else if decide (pc ≠ []) && decide (lc ≠ []) && decide (interW pc lc = []) then false
  else if decide (0 < sp.length) && decide ((interW sp sl).length * 10 < sp.length * 9) then false
  else true

/-- The acceptance test: immediate accept on substring containment of
    the upper-cased stripped name, otherwise the four gates. -/
def fuzzy_match (proc_name line : List Char) : Bool :=
  let pu := stripL (upperL proc_name)
  let lu := stripL (upperL line)
  if containsSub pu lu then true else fuzzy_gates pu lu

/-- Generic modality pattern table, in source order. -/
def modality_patterns : List (List Char × List (List Char)) := [
  (chs "CT", [chs "CT ", chs "COMPUTED"]),
  (chs "MRI", [chs "MRI ", chs "MR ", chs "MAGNETIC"]),
  (chs "US", [chs "US ", chs "ULTRASOUND", chs "ECHO", chs "VASCULAR", chs "DUPLEX"]),
  (chs "XR", [chs "XR ", chs "RADIOGRAPH"]),
  (chs "MAMMOGRAPHY", [chs "MAMMO", chs "BREAST", chs "MG "]),
  (chs "PET", [chs "PET", chs "POSITRON"]),
  (chs "NM", [chs "NM ", chs "NUCLEAR", chs "BONE SCAN", chs "SPECT", chs "LUNG SCAN", chs "LIVER SCAN"]),
  (chs "FL", [chs "FL ", chs "FLUORO", chs "FLUOROSCOPY", chs "ESOPHAGRAM", chs "BARIUM", chs "UPPER GI", chs "RETROGRADE"]),
  (chs "ANGIO", [chs "ANGIO", chs "ANGIOGRAM", chs "ANGIOGRAPHY"]),
  (chs "DXA", [chs "DXA", chs "BONE DENSITY", chs "DEXA"]),
  (chs "IR", [chs "IR ", chs "EMBOLIZATION", chs "KYPHOPLASTY"]),
  (chs "PROCEDURE", [chs "THORACENTESIS", chs "PARACENTESIS"])]

/-- The generic classifier: first modality (in table order) one of
    whose patterns occurs in the upper-cased line. -/
def try_generic_match (line : List Char) : Option (List Char) :=
  (modality_patterns.find?
    (fun mp => mp.2.any (fun pat => containsSub pat (upperL line)))).map (fun mp => mp.1)

/-- A match record produced by the matcher. -/
structure MatchRecord where
  procedure : List Char
  original_line : List Char
  cleaned_line : List Char
  is_generic : Bool
  source : List Char
deriving DecidableEq

/-- Stable insertion of a name into a list sorted by decreasing length. -/
def insertByLen (x : List Char) : List (List Char) → List (List Char)
  | [] => [x]
  | y :: ys => if y.length ≤ x.length then x :: y :: ys else y :: insertByLen x ys

/-- Python sorted with key len and reverse, a stable sort by decreasing
    character length. -/
def sortByLenDesc : List (List Char) → List (List Char)
  | [] => []
  | x :: xs => insertByLen x (sortByLenDesc xs)

/-- Best-match scan: keep the accepted name with the strictly greatest
    word count seen so far. -/
def best_loop (cl : List Char) : List (List Char) → Option (List Char) × Nat → Option (List Char) × Nat
  | [], st => st
  | nm :: rest, st =>
    if fuzzy_match nm cl = true ∧ st.2 < wordCountOf nm then
      best_loop cl rest (some nm, wordCountOf nm)
    else best_loop cl rest st

/-- The catalog entry selected for a cleaned line, if any. -/
def best_match (names : List (List Char)) (cl : List Char) : Option (List Char) :=
  (best_loop cl names (none, 0)).1

/-- Processing of one reconstructed line against a given sorted name
    list: skip short lines, clean, try the catalog, then the generic
    classifier. -/
def match_line (names : List (List Char)) (src line : List Char) : Option MatchRecord :=
  if line = [] ∨ line.length < 5 then none
  else
    match best_match names (clean_pacs_text line) with
    | some p => some ⟨p, line, clean_pacs_text line, false, src⟩
    | none =>
      match try_generic_match (clean_pacs_text line) with
      | some m => some ⟨chs "GENERIC " ++ m, line, clean_pacs_text line, true, src⟩
      | none => none

/-- Processing of one reconstructed line by the matcher, with the
    catalog keys sorted by decreasing length as in the source. -/
def process_line (src line : List Char) : Option MatchRecord :=
  match_line (sortByLenDesc dbKeys) src line

/-- The matcher over a list of reconstructed lines (the emitted match
    records, in order). -/
def find_procedures_in_reconstructed_text (procedure_lines : List (List Char))
    (source_file : List Char) : List MatchRecord :=
  procedure_lines.filterMap (process_line source_file)

/-- One row of the aggregation result. -/
structure ResultRow where
  procedure : List Char
  count : Nat
  wrvu_each : ℚ
  total_wrvu : ℚ
  cpt : List Char
  is_generic : Bool
deriving DecidableEq

/-- Counting step: dict get-or-zero plus one, preserving first-insertion
    order. -/
def bump : List (List Char × Nat) → List Char → List (List Char × Nat)
  | [], nm => [(nm, 1)]
  | (k, c) :: rest, nm => if k = nm then (k, c + 1) :: rest else (k, c) :: bump rest nm

/-- Python str.startswith for the GENERIC prefix test. -/
def startswith_generic (nm : List Char) : Bool := isPre (chs "GENERIC") nm

/-- The modality recovered from a generic identity: replace all
    occurrences of the nine-character GENERIC-space pattern by nothing. -/
def strip_generic (nm : List Char) : List Char := replaceAll (chs "GENERIC ") [] nm

/-- Association-list lookup in the generic weight table. -/
def lookupQ : List (List Char × ℚ) → List Char → Option ℚ
  | [], _ => none
  | (k, v) :: rest, nm => if k = nm then some v else lookupQ rest nm

/-- Association-list lookup in the catalog. -/
def lookupE : List (List Char × ProcEntry) → List Char → Option ProcEntry
  | [], _ => none
  | (k, v) :: rest, nm => if k = nm then some v else lookupE rest nm

/-- The aggregation loop over the per-identity counts, producing the
    result rows, total exams, total weight and generic count.  A
    non-generic identity absent from the catalog is a KeyError in the
    source, modelled as none. -/
def calc_loop : List (List Char × Nat) → Option (List ResultRow × Nat × ℚ × Nat)
  | [] => some ([], 0, 0, 0)
  | (nm, count) :: rest =>
    if startswith_generic nm then
      let w := (lookupQ generic_wrvus (strip_generic nm)).getD 1
      match calc_loop rest with
      | some (rows, te, tw, gc) =>
        some (⟨nm, count, w, w * (count : ℚ), chs "GENERIC", true⟩ :: rows,
              te + count, tw + w * (count : ℚ), gc + count)
      | none => none
    else
      match lookupE procedure_db nm with
      | some e =>
        match calc_loop rest with
        | some (rows, te, tw, gc) =>
          some (⟨nm, count, e.wrvu, e.wrvu * (count : ℚ), e.cpt, false⟩ :: rows,
                te + count, tw + e.wrvu * (count : ℚ), gc)
        | none => none
      | none => none

/-- The aggregator: group by resolved identity in insertion order, then
    run the aggregation loop. -/
def calculate_wrvus (procedures : List MatchRecord) : Option (List ResultRow × Nat × ℚ × Nat) :=
  calc_loop (procedures.foldl (fun cs r => bump cs r.procedure) [])

/-- An identity the aggregator can price: generic by prefix, or present
    in the catalog. -/
def known_identity (nm : List Char) : Bool :=
  startswith_generic nm || (lookupE procedure_db nm).isSome

/-- The per-unit weight the aggregator uses for an identity. -/
def unit_wrvu (nm : List Char) : ℚ :=
  if startswith_generic nm then (lookupQ generic_wrvus (strip_generic nm)).getD 1
  else ((lookupE procedure_db nm).map ProcEntry.wrvu).getD 0

/-- Total of the counts of a per-identity count list. -/
def sumCounts : List (List Char × Nat) → Nat
  | [] => 0
  | kc :: rest => sumCounts rest + kc.2

/-- Total weight of a per-identity count list: per-unit weight times
    count, summed. -/
def wsumCounts : List (List Char × Nat) → ℚ
  | [] => 0
  | kc :: rest => wsumCounts rest + unit_wrvu kc.1 * (kc.2 : ℚ)


/-! ### Prefix, substring and strip lemmas -/

theorem isPre_iff (n : List Char) : ∀ h : List Char, isPre n h = true ↔ ∃ t, h = n ++ t := by
  induction n with
  | nil => intro h; simp [isPre]
  | cons x xs ih =>
    intro h
    cases h with
    | nil =>
      simp [isPre]
    | cons y ys =>
      simp only [isPre, Bool.and_eq_true, decide_eq_true_eq, ih ys]
      constructor
      · rintro ⟨hx, t, ht⟩
        subst hx
        exact ⟨t, by rw [ht]; rfl⟩
      · rintro ⟨t, ht⟩
        injection ht with h1 h2
        exact ⟨h1.symm, t, h2⟩

theorem containsSub_iff (n : List Char) :
    ∀ h : List Char, containsSub n h = true ↔ ∃ a b, h = a ++ n ++ b := by
  intro h
  induction h with
  | nil =>
    simp only [containsSub, List.isEmpty_iff]
    constructor
    · rintro rfl; exact ⟨[], [], rfl⟩
    · rintro ⟨a, b, hab⟩
      obtain ⟨h1, hb⟩ := List.append_eq_nil.mp hab.symm
      obtain ⟨ha, hn⟩ := List.append_eq_nil.mp h1
      exact hn
  | cons c t ih =>
    simp only [containsSub, Bool.or_eq_true, ih, isPre_iff]
    constructor
    · rintro (⟨b, hb⟩ | ⟨a, b, hab⟩)
      · exact ⟨[], b, by simpa using hb⟩
      · exact ⟨c :: a, b, by simp [hab]⟩
    · rintro ⟨a, b, hab⟩
      cases a with
      | nil => exact Or.inl ⟨b, by simpa using hab⟩
      | cons a0 a2 =>
        injection hab with h1 h2
        exact Or.inr ⟨a2, b, h2⟩

theorem containsSub_nil_left : ∀ h : List Char, containsSub [] h = true := by
  intro h; cases h <;> simp [containsSub, isPre]

theorem dropWhile_head_false (p : Char → Bool) :
    ∀ (l : List Char) c t, l.dropWhile p = c :: t → p c = false := by
  intro l
  induction l with
  | nil => intro c t h; simp [List.dropWhile] at h
  | cons x xs ih =>
    intro c t h
    rw [List.dropWhile_cons] at h
    by_cases hx : p x = true
    · simp only [hx, if_true] at h; exact ih c t h
    · simp only [hx, if_false] at h
      injection h with h1 h2
      subst h1
      simpa using hx

theorem dw_app_all (p : Char → Bool) :
    ∀ (a x : List Char), (∀ c ∈ a, p c = true) → (a ++ x).dropWhile p = x.dropWhile p := by
  intro a
  induction a with
  | nil => intro x _; rfl
  | cons y ys ih =>
    intro x h
    have hy : p y = true := h y (List.mem_cons_self y ys)
    rw [List.cons_append, List.dropWhile_cons, if_pos hy]
    exact ih x (fun c hc => h c (List.mem_cons_of_mem y hc))

theorem dw_app_not (p : Char → Bool) :
    ∀ (a x : List Char), ¬ (∀ c ∈ a, p c = true) →
      (a ++ x).dropWhile p = a.dropWhile p ++ x := by
  intro a
  induction a with
  | nil => intro x h; exact absurd (fun c hc => absurd hc (List.not_mem_nil c)) h
  | cons y ys ih =>
    intro x h
    by_cases hy : p y = true
    · have hys : ¬ (∀ c ∈ ys, p c = true) := by
        intro hall
        exact h (fun c hc => by
          rcases List.mem_cons.mp hc with rfl | hmem
          · exact hy
          · exact hall c hmem)
      rw [List.cons_append, List.dropWhile_cons, if_pos hy, List.dropWhile_cons, if_pos hy]
      exact ih x hys
    · rw [List.cons_append, List.dropWhile_cons, if_neg hy, List.dropWhile_cons, if_neg hy]
      rfl

theorem dropWhile_keep_middle (p : Char → Bool) (a u b : List Char)
    (hne : u ≠ []) (hu : ∀ c t, u = c :: t → p c = false) :
    ∃ a2, (a ++ u ++ b).dropWhile p = a2 ++ u ++ b := by
  obtain ⟨c0, t0, rfl⟩ : ∃ c0 t0, u = c0 :: t0 := by
    cases u with
    | nil => exact absurd rfl hne
    | cons c0 t0 => exact ⟨c0, t0, rfl⟩
  have hc0 : p c0 = false := hu c0 t0 rfl
  by_cases ha : ∀ c ∈ a, p c = true
  · refine ⟨[], ?_⟩
    rw [List.append_assoc, dw_app_all p a _ ha]
    rw [List.cons_append, List.dropWhile_cons, if_neg (by simp [hc0])]
    simp
  · refine ⟨a.dropWhile p, ?_⟩
    rw [List.append_assoc, dw_app_not p a _ ha, List.append_assoc]

theorem strip_pre_decomp (l : List Char) :
    l.dropWhile isWS = stripL l ++ ((l.dropWhile isWS).reverse.takeWhile isWS).reverse := by
  conv_lhs => rw [← List.reverse_reverse (l.dropWhile isWS),
    ← List.takeWhile_append_dropWhile (p := isWS) (l := (l.dropWhile isWS).reverse)]
  rw [List.reverse_append]
  rfl

theorem strip_decomp (l : List Char) : ∃ u v, l = u ++ stripL l ++ v := by
  refine ⟨l.takeWhile isWS, ((l.dropWhile isWS).reverse.takeWhile isWS).reverse, ?_⟩
  rw [List.append_assoc, ← strip_pre_decomp l]
  exact (List.takeWhile_append_dropWhile (p := isWS) (l := l)).symm

theorem strip_head_false (l : List Char) :
    ∀ c t, stripL l = c :: t → isWS c = false := by
  intro c t h
  have hd := strip_pre_decomp l
  rw [h] at hd
  exact dropWhile_head_false isWS l c _ (by rw [hd]; rfl)

theorem strip_revhead_false (l : List Char) :
    ∀ c t, (stripL l).reverse = c :: t → isWS c = false := by
  intro c t h
  have : (stripL l).reverse = ((l.dropWhile isWS).reverse).dropWhile isWS := by
    simp [stripL]
  rw [this] at h
  exact dropWhile_head_false isWS _ c t h

theorem containsSub_strip (P L : List Char) (h : containsSub P L = true) :
    containsSub (stripL P) (stripL L) = true := by
  rcases (containsSub_iff P L).mp h with ⟨x, y, rfl⟩
  obtain ⟨u, v, hP⟩ := strip_decomp P
  by_cases hsp : stripL P = []
  · rw [hsp]; exact containsSub_nil_left _
  · have h1 := strip_head_false P
    have h2 := strip_revhead_false P
    set SP := stripL P with hSP
    rw [hP]
    have hL : x ++ (u ++ SP ++ v) ++ y = (x ++ u) ++ SP ++ (v ++ y) := by
      simp [List.append_assoc]
    rw [hL]
    obtain ⟨a2, hd⟩ := dropWhile_keep_middle isWS (x ++ u) SP (v ++ y) hsp h1
    have hstep : stripL ((x ++ u) ++ SP ++ (v ++ y)) =
        ((a2 ++ SP ++ (v ++ y)).reverse.dropWhile isWS).reverse := by
      rw [show stripL ((x ++ u) ++ SP ++ (v ++ y)) =
        ((((x ++ u) ++ SP ++ (v ++ y)).dropWhile isWS).reverse.dropWhile isWS).reverse
        from rfl, hd]
    rw [hstep]
    have hrev : (a2 ++ SP ++ (v ++ y)).reverse =
        (v ++ y).reverse ++ SP.reverse ++ a2.reverse := by
      simp [List.append_assoc]
    rw [hrev]
    obtain ⟨b2, hd2⟩ := dropWhile_keep_middle isWS ((v ++ y).reverse) SP.reverse
      (a2.reverse) (by simpa using hsp) h2
    rw [hd2]
    have hback : (b2 ++ SP.reverse ++ a2.reverse).reverse =
        a2 ++ SP ++ b2.reverse := by
      simp [List.append_assoc]
    rw [hback]
    exact (containsSub_iff SP _).mpr ⟨a2, b2.reverse, by simp [List.append_assoc]⟩

/-- C5: if the upper-cased catalog name occurs as a contiguous literal
    substring of the upper-cased line, the acceptance test accepts,
    regardless of the gate outcomes. -/
theorem substring_accept_monotone (p l : List Char)
    (h : containsSub (upperL p) (upperL l) = true) : fuzzy_match p l = true := by
  have hs := containsSub_strip _ _ h
  simp [fuzzy_match, hs]

/-- Witness for C5 at a concrete name and line. -/
theorem substring_accept_monotone_witness :
    containsSub (upperL (chs "CT CHEST")) (upperL (chs "XX CT CHEST YY")) = true ∧
    fuzzy_match (chs "CT CHEST") (chs "XX CT CHEST YY") = true :=
  ⟨by decide, substring_accept_monotone _ _ (by decide)⟩

/-! ### Fixed points of the normalizer -/

theorem upperL_id_of_fixed : ∀ l : List Char, (∀ c ∈ l, pyUpper c = c) → upperL l = l := by
  intro l
  induction l with
  | nil => intro h; rfl
  | cons c rest ih =>
    intro h
    simp only [upperL, List.map_cons]
    rw [h c (List.mem_cons_self _ _)]
    have hrest : upperL rest = rest := ih (fun d hd => h d (List.mem_cons_of_mem _ hd))
    simp only [upperL] at hrest
    rw [hrest]

theorem replaceAllAux_id (o n : List Char) :
    ∀ (fuel : Nat) (st : List Char), containsSub o st = false → replaceAllAux o n fuel st = st := by
  intro fuel
  induction fuel with
  | zero => intro st h; cases st <;> rfl
  | succ f ih =>
    intro st h
    cases st with
    | nil => rfl
    | cons c rest =>
      have hor : isPre o (c :: rest) = false ∧ containsSub o rest = false := by
        simpa [containsSub] using h
      simp only [replaceAllAux]
      rw [if_neg, ih rest hor.2]
      rintro ⟨hne, hpre⟩
      rw [hor.1] at hpre
      exact absurd hpre (by simp)

theorem replaceAll_id (o n st : List Char) (h : containsSub o st = false) :
    replaceAll o n st = st :=
  replaceAllAux_id o n st.length st h

theorem fold_replace_id (s0 : List Char) :
    ∀ rs : List (List Char × List Char), (∀ pr ∈ rs, containsSub pr.1 s0 = false) →
      rs.foldl (fun st pr => replaceAll pr.1 pr.2 st) s0 = s0 := by
  intro rs
  induction rs with
  | nil => intro _; rfl
  | cons r rest ih =>
    intro h
    have hs : replaceAll r.1 r.2 s0 = s0 :=
      replaceAll_id r.1 r.2 s0 (h r (List.mem_cons_self _ _))
    rw [List.foldl_cons, hs]
    exact ih (fun pr hpr => h pr (List.mem_cons_of_mem _ hpr))

theorem collapseAux_id : ∀ (fuel : Nat) (st : List Char),
    containsSub (chs "  ") st = false → collapseAux fuel st = st := by
  intro fuel
  cases fuel with
  | zero => intro st _; rfl
  | succ f => intro st h; simp [collapseAux, h]

/-- Any string that is fixed under upper-casing, free of every pattern
    of the replacement table, and fixed under stripping is a fixed
    point of the normalizer. -/
theorem clean_fixed (t : List Char)
    (h1 : ∀ pr ∈ replacements, containsSub pr.1 t = false)
    (h2 : ∀ c ∈ t, pyUpper c = c)
    (h3 : stripL t = t) :
    clean_pacs_text t = t := by
  have hdd : containsSub (chs "  ") t = false :=
    h1 (chs "  ", chs " ") (by decide)
  show stripL (collapseAux (replacements.foldl (fun st pr => replaceAll pr.1 pr.2 st)
    (upperL t)).length (replacements.foldl (fun st pr => replaceAll pr.1 pr.2 st) (upperL t))) = t
  rw [upperL_id_of_fixed t h2, fold_replace_id t replacements h1, collapseAux_id t.length t hdd, h3]

/-- C3 (counterexample): normalization is not idempotent; cleaning
    CR-CHEST once yields CR CHEST, cleaning it twice yields XR CHEST. -/
theorem clean_idempotence_cex :
    clean_pacs_text (clean_pacs_text (chs "CR-CHEST")) ≠ clean_pacs_text (chs "CR-CHEST") := by
  decide

/-- C3 (amended): applying the normalizer twice agrees with applying it
    once on every input whose once-cleaned form is a fixed point of the
    cleaning pass, i.e. contains no occurrence of any replacement-table
    pattern, is fixed under upper-casing, and is fixed under stripping;
    in general idempotence fails (see the counterexample). -/
theorem clean_idempotent_of_fixed (x : List Char)
    (h1 : ∀ pr ∈ replacements, containsSub pr.1 (clean_pacs_text x) = false)
    (h2 : ∀ c ∈ clean_pacs_text x, pyUpper c = c)
    (h3 : stripL (clean_pacs_text x) = clean_pacs_text x) :
    clean_pacs_text (clean_pacs_text x) = clean_pacs_text x :=
  clean_fixed _ h1 h2 h3

/-- Witness for the amended C3 at the input CT CHEST. -/
theorem clean_idempotent_of_fixed_witness :
    (∀ pr ∈ replacements, containsSub pr.1 (clean_pacs_text (chs "CT CHEST")) = false) ∧
    (∀ c ∈ clean_pacs_text (chs "CT CHEST"), pyUpper c = c) ∧
    stripL (clean_pacs_text (chs "CT CHEST")) = clean_pacs_text (chs "CT CHEST") ∧
    clean_pacs_text (clean_pacs_text (chs "CT CHEST")) = clean_pacs_text (chs "CT CHEST") :=
  ⟨by decide, by decide, by decide,
   clean_idempotent_of_fixed _ (by decide) (by decide) (by decide)⟩

/-- C4 (counterexample): the alias replacement does rewrite characters
    inside a longer word; the word ACR (ending in CR before a space) is
    not left unchanged by the normalizer. -/
theorem alias_whole_token_cex : clean_pacs_text (chs "ACR FOO") ≠ chs "ACR FOO" := by decide

/-- C4 (amended): the alias rules are plain literal substring
    replacements, not whole-token replacements: an occurrence of CR
    followed by a space is rewritten to XR even inside the longer word
    ACR, exactly as it is when standing alone. -/
theorem alias_literal_substring :
    clean_pacs_text (chs "ACR FOO") = chs "AXR FOO" ∧
    clean_pacs_text (chs "CR FOO") = chs "XR FOO" := by
  exact ⟨by decide, by decide⟩

/-- C10: a raw line containing a date pattern that is reached while the
    accumulator is empty is discarded entirely and contributes nothing,
    even when it begins with a recognized modality prefix and carries
    procedure text; in particular a first line CT CHEST 01-JAN-2024
    produces no reconstructed line. -/
theorem date_line_discarded_when_empty :
    (∀ (line : List Char) (out : List (List Char)),
      hasDate line = true → recon_step ([], out) line = ([], out)) ∧
    reconstruct_procedure_lines (chs "CT CHEST 01-JAN-2024") = [] := by
  constructor
  · intro line out hdate
    by_cases h3 : line.length < 3
    · simp [recon_step, h3]
    · simp [recon_step, h3, hdate]
  · decide

/-- Witness for C10: a bare date line leaves the empty state unchanged. -/
theorem date_line_discarded_when_empty_witness :
    recon_step ([], []) (chs "01-JAN-2024") = ([], []) :=
  date_line_discarded_when_empty.1 (chs "01-JAN-2024") [] (by decide)

/-! ### Word-set lemmas for the anatomy gate -/

theorem mem_interW {w : List Char} {a b : List (List Char)} :
    w ∈ interW a b ↔ w ∈ a ∧ w ∈ b := by
  simp [interW]

theorem eqSetW_mem (a b : List (List Char)) (h : eqSetW a b = true) :
    ∀ w, w ∈ b → w ∈ a := by
  intro w hw
  have h2 := (Bool.and_eq_true _ _ |>.mp h).2
  rw [List.all_eq_true] at h2
  simpa using h2 w hw

/-- C6 (counterexample): the claim fails as stated, because the
    substring shortcut bypasses the anatomy gate: the catalog name
    XR KNEE MINIMUM 2 VIEWS (whose word set contains KNEE) accepts the
    line XR KNEE MINIMUM 2 VIEWS HIP (whose word set contains HIP). -/
theorem anatomy_exactness_cex :
    chs "XR KNEE MINIMUM 2 VIEWS" ∈ dbKeys ∧
    chs "KNEE" ∈ wordSet (stripL (upperL (chs "XR KNEE MINIMUM 2 VIEWS"))) ∧
    chs "HIP" ∈ wordSet (stripL (upperL (chs "XR KNEE MINIMUM 2 VIEWS HIP"))) ∧
    fuzzy_match (chs "XR KNEE MINIMUM 2 VIEWS") (chs "XR KNEE MINIMUM 2 VIEWS HIP") = true :=
  ⟨by decide, by decide, by decide, by decide⟩

/-- C6 (amended): for every catalog name whose word set contains KNEE
    and every line whose word set contains HIP, the acceptance test
    rejects, provided the upper-cased stripped name does not occur as a
    literal substring of the upper-cased stripped line (the substring
    shortcut is the only path that bypasses the anatomy gate). -/
theorem anatomy_exactness_no_substring (p l : List Char)
    (hdb : p ∈ dbKeys)
    (hknee : chs "KNEE" ∈ wordSet (stripL (upperL p)))
    (hhip : chs "HIP" ∈ wordSet (stripL (upperL l)))
    (hsub : containsSub (stripL (upperL p)) (stripL (upperL l)) = false) :
    fuzzy_match p l = false := by
  have hnohip : chs "HIP" ∉ wordSet (stripL (upperL p)) := by
    have hall : ∀ q ∈ dbKeys, chs "KNEE" ∈ wordSet (stripL (upperL q)) →
        chs "HIP" ∉ wordSet (stripL (upperL q)) := by decide
    exact hall p hdb hknee
  simp only [fuzzy_match, hsub, Bool.false_eq_true, if_false]
  simp only [fuzzy_gates]
  split
  · rfl
  · split
    · rfl
    · rename_i hc2
      exfalso
      apply hc2
      have hpa : chs "KNEE" ∈ interW (wordSet (stripL (upperL p))) anatomy_words :=
        mem_interW.mpr ⟨hknee, by decide⟩
      have hpane : interW (wordSet (stripL (upperL p))) anatomy_words ≠ [] := by
        intro he
        rw [he] at hpa
        exact absurd hpa (List.not_mem_nil _)
      have hla : chs "HIP" ∈ interW (wordSet (stripL (upperL l))) anatomy_words :=
        mem_interW.mpr ⟨hhip, by decide⟩
      have hneq : eqSetW (interW (wordSet (stripL (upperL p))) anatomy_words)
          (interW (wordSet (stripL (upperL l))) anatomy_words) = false := by
        by_contra hcon
        have htrue : eqSetW (interW (wordSet (stripL (upperL p))) anatomy_words)
            (interW (wordSet (stripL (upperL l))) anatomy_words) = true := by
          cases hval : eqSetW (interW (wordSet (stripL (upperL p))) anatomy_words)
              (interW (wordSet (stripL (upperL l))) anatomy_words)
          · exact absurd hval hcon
          · rfl
        have hinp := eqSetW_mem _ _ htrue (chs "HIP") hla
        exact hnohip (mem_interW.mp hinp).1
      rw [decide_eq_true hpane, hneq]
      rfl

/-- Witness for the amended C6 at a concrete knee name and hip line. -/
theorem anatomy_exactness_no_substring_witness :
    fuzzy_match (chs "XR KNEE MINIMUM 2 VIEWS") (chs "XR HIP MINIMUM 2 VIEWS") = false :=
  anatomy_exactness_no_substring _ _ (by decide) (by decide) (by decide) (by decide)

/-! ### Best-match selection lemmas -/

theorem mem_insertByLen (x y : List Char) : ∀ l, y ∈ insertByLen x l ↔ y = x ∨ y ∈ l := by
  intro l
  induction l with
  | nil => simp [insertByLen]
  | cons z zs ih =>
    simp only [insertByLen]
    split
    · simp [List.mem_cons]
    · simp only [List.mem_cons, ih]
      tauto

theorem mem_sortByLenDesc (y : List Char) : ∀ l, y ∈ sortByLenDesc l ↔ y ∈ l := by
  intro l
  induction l with
  | nil => simp [sortByLenDesc]
  | cons x xs ih =>
    simp only [sortByLenDesc, mem_insertByLen, ih, List.mem_cons]

theorem best_loop_score_le (cl : List Char) :
    ∀ (names : List (List Char)) (st : Option (List Char) × Nat),
      st.2 ≤ (best_loop cl names st).2 := by
  intro names
  induction names with
  | nil => intro st; exact le_refl _
  | cons nm rest ih =>
    intro st
    simp only [best_loop]
    split
    · rename_i hcond
      exact le_trans (le_of_lt hcond.2) (ih (some nm, wordCountOf nm))
    · exact ih st

theorem best_loop_bound (cl : List Char) :
    ∀ (names : List (List Char)) (st : Option (List Char) × Nat) (q : List Char),
      q ∈ names → fuzzy_match q cl = true → wordCountOf q ≤ (best_loop cl names st).2 := by
  intro names
  induction names with
  | nil => intro st q hq _; exact absurd hq (List.not_mem_nil q)
  | cons nm rest ih =>
    intro st q hq hf
    rcases List.mem_cons.mp hq with rfl | hmem
    · simp only [best_loop]
      split
      · exact best_loop_score_le cl rest (some q, wordCountOf q)
      · rename_i hcond
        have hle : wordCountOf q ≤ st.2 := by
          by_contra hlt
          exact hcond ⟨hf, Nat.lt_of_not_le hlt⟩
        exact le_trans hle (best_loop_score_le cl rest st)
    · simp only [best_loop]
      split
      · exact ih _ q hmem hf
      · exact ih st q hmem hf

theorem best_loop_ok (cl : List Char) :
    ∀ (names : List (List Char)) (st : Option (List Char) × Nat),
      (∀ p0, st.1 = some p0 → fuzzy_match p0 cl = true ∧ st.2 = wordCountOf p0) →
      ∀ p, (best_loop cl names st).1 = some p →
        fuzzy_match p cl = true ∧ (best_loop cl names st).2 = wordCountOf p := by
  intro names
  induction names with
  | nil => intro st hst; simpa [best_loop] using hst
  | cons nm rest ih =>
    intro st hst
    simp only [best_loop]
    split
    · rename_i hcond
      refine ih _ (fun p0 hp0 => ?_)
      have he : nm = p0 := by simpa using hp0
      subst he
      exact ⟨hcond.1, rfl⟩
    · exact ih st hst

theorem best_loop_mem (cl : List Char) :
    ∀ (names : List (List Char)) (st : Option (List Char) × Nat) (p : List Char),
      (best_loop cl names st).1 = some p → st.1 = some p ∨ p ∈ names := by
  intro names
  induction names with
  | nil => intro st p hp; exact Or.inl (by simpa [best_loop] using hp)
  | cons nm rest ih =>
    intro st p hp
    simp only [best_loop] at hp
    split at hp
    · rcases ih _ p hp with h1 | h2
      · have : nm = p := by simpa using h1
        subst this
        exact Or.inr (List.mem_cons_self _ _)
      · exact Or.inr (List.mem_cons_of_mem _ h2)
    · rcases ih st p hp with h1 | h2
      · exact Or.inl h1
      · exact Or.inr (List.mem_cons_of_mem _ h2)

theorem best_match_spec (names : List (List Char)) (cl p : List Char)
    (h : best_match names cl = some p) :
    fuzzy_match p cl = true ∧ p ∈ names ∧
      ∀ q ∈ names, fuzzy_match q cl = true → wordCountOf q ≤ wordCountOf p := by
  have hok := best_loop_ok cl names (none, 0) (fun p0 hp0 => by simp at hp0) p h
  have hmem := best_loop_mem cl names (none, 0) p h
  refine ⟨hok.1, ?_, ?_⟩
  · rcases hmem with h1 | h2
    · simp at h1
    · exact h2
  · intro q hq hf
    have hb := best_loop_bound cl names (none, 0) q hq hf
    rw [hok.2] at hb
    exact hb

theorem match_line_cases (names : List (List Char)) (src line : List Char) (r : MatchRecord)
    (h : match_line names src line = some r) :
    (r.is_generic = false ∧
      best_match names (clean_pacs_text line) = some r.procedure ∧
      r.cleaned_line = clean_pacs_text line) ∨
    (r.is_generic = true ∧ ∃ m, try_generic_match (clean_pacs_text line) = some m ∧
      r.procedure = chs "GENERIC " ++ m ∧ r.cleaned_line = clean_pacs_text line) := by
  simp only [match_line] at h
  generalize hcl : clean_pacs_text line = cl at h ⊢
  by_cases h5 : line = [] ∨ line.length < 5
  · rw [if_pos h5] at h; cases h
  · rw [if_neg h5] at h
    rcases hbm : best_match names cl with _ | p
    · rw [hbm] at h
      rcases hg : try_generic_match cl with _ | m
      · rw [hg] at h; cases h
      · rw [hg] at h
        injection h with he
        subst he
        exact Or.inr ⟨rfl, m, rfl, rfl, rfl⟩
    · rw [hbm] at h
      injection h with he
      subst he
      exact Or.inl ⟨rfl, rfl, rfl⟩

theorem process_line_cases (src line : List Char) (r : MatchRecord)
    (h : process_line src line = some r) :
    (r.is_generic = false ∧
      best_match (sortByLenDesc dbKeys) (clean_pacs_text line) = some r.procedure ∧
      r.cleaned_line = clean_pacs_text line) ∨
    (r.is_generic = true ∧ ∃ m, try_generic_match (clean_pacs_text line) = some m ∧
      r.procedure = chs "GENERIC " ++ m ∧ r.cleaned_line = clean_pacs_text line) :=
  match_line_cases (sortByLenDesc dbKeys) src line r h

/-- C7: whenever the matcher emits a non-generic record with identity p
    for some reconstructed line, the acceptance test accepts p on the
    cleaned line, and every catalog name q accepted on that cleaned
    line has word count at most that of p (the selected entry maximizes
    the word count among all accepted entries). -/
theorem best_match_specificity (lines : List (List Char)) (src : List Char) (r : MatchRecord)
    (hr : r ∈ find_procedures_in_reconstructed_text lines src)
    (hng : r.is_generic = false) :
    fuzzy_match r.procedure r.cleaned_line = true ∧
      ∀ q ∈ dbKeys, fuzzy_match q r.cleaned_line = true →
        wordCountOf q ≤ wordCountOf r.procedure := by
  obtain ⟨line, hline, hp⟩ := List.mem_filterMap.mp hr
  rcases process_line_cases src line r hp with ⟨_, hbm, hcl⟩ | ⟨hg, _⟩
  · obtain ⟨hf, hmem, hmax⟩ := best_match_spec _ _ _ hbm
    rw [hcl]
    exact ⟨hf, fun q hq hfq => hmax q ((mem_sortByLenDesc q _).mpr hq) hfq⟩
  · rw [hg] at hng; cases hng

/-- Witness for C7 at a line matched by its own catalog entry. -/
theorem best_match_specificity_witness :
    fuzzy_match (chs "XR KNEE 2 VIEWS RIGHT") (chs "XR KNEE 2 VIEWS RIGHT") = true ∧
    ∀ q ∈ dbKeys, fuzzy_match q (chs "XR KNEE 2 VIEWS RIGHT") = true →
      wordCountOf q ≤ wordCountOf (chs "XR KNEE 2 VIEWS RIGHT") :=
  best_match_specificity [chs "XR KNEE 2 VIEWS RIGHT"] []
    ⟨chs "XR KNEE 2 VIEWS RIGHT", chs "XR KNEE 2 VIEWS RIGHT",
      chs "XR KNEE 2 VIEWS RIGHT", false, []⟩
    (by decide) rfl

theorem lookupE_isSome_of_mem (db : List (List Char × ProcEntry)) (nm : List Char) :
    nm ∈ db.map (fun e => e.1) → (lookupE db nm).isSome = true := by
  induction db with
  | nil => intro h; simp at h
  | cons kv rest ih =>
    intro h
    obtain ⟨k, v⟩ := kv
    simp only [List.map_cons, List.mem_cons] at h
    simp only [lookupE]
    by_cases heq : k = nm
    · rw [if_pos heq]; rfl
    · rw [if_neg heq]
      rcases h with h1 | h2
      · exact absurd h1.symm heq
      · exact ih h2

/-- C9: every match record emitted by the matcher carries either a
    catalog key (non-generic case, so its catalog lookup succeeds) or
    an identity GENERIC followed by a key of the generic weight table
    (generic case); the aggregator therefore prices every record from
    one of the two tables. -/
theorem match_record_identity_invariant (lines : List (List Char)) (src : List Char)
    (r : MatchRecord) (hr : r ∈ find_procedures_in_reconstructed_text lines src) :
    (r.is_generic = false ∧ r.procedure ∈ dbKeys ∧
      (lookupE procedure_db r.procedure).isSome = true) ∨
    (r.is_generic = true ∧ ∃ m, m ∈ genericKeys ∧ r.procedure = chs "GENERIC " ++ m) := by
  obtain ⟨line, hline, hp⟩ := List.mem_filterMap.mp hr
  rcases process_line_cases src line r hp with ⟨hng, hbm, _⟩ | ⟨hg, m, hgm, hproc, _⟩
  · obtain ⟨_, hmem, _⟩ := best_match_spec _ _ _ hbm
    have hdb : r.procedure ∈ dbKeys := (mem_sortByLenDesc _ _).mp hmem
    exact Or.inl ⟨hng, hdb, lookupE_isSome_of_mem _ _ hdb⟩
  · have hm : m ∈ genericKeys := by
      simp only [try_generic_match] at hgm
      rcases hfind : modality_patterns.find?
          (fun mp => mp.2.any (fun pat => containsSub pat (upperL (clean_pacs_text line))))
        with _ | mp
      · rw [hfind] at hgm; cases hgm
      · rw [hfind] at hgm
        have hmem := List.mem_of_find?_eq_some hfind
        have hfst : mp.1 = m := by simpa using hgm
        have hall : ∀ mp2 ∈ modality_patterns, mp2.1 ∈ genericKeys := by decide
        rw [← hfst]
        exact hall mp hmem
    exact Or.inr ⟨hg, m, hm, hproc⟩

/-- Witness for C9 at a line matched by the catalog entry US RENAL. -/
theorem match_record_identity_invariant_witness :
    (false = false ∧ chs "US RENAL" ∈ dbKeys ∧
      (lookupE procedure_db (chs "US RENAL")).isSome = true) ∨
    (false = true ∧ ∃ m, m ∈ genericKeys ∧ chs "US RENAL" = chs "GENERIC " ++ m) :=
  match_record_identity_invariant [chs "US RENAL"] []
    ⟨chs "US RENAL", chs "US RENAL", chs "US RENAL", false, []⟩ (by decide)

/-! ### Generic classifier and aggregation lemmas -/

theorem find?_split {α : Type} (p : α → Bool) :
    ∀ (l : List α) (a : α), l.find? p = some a →
      ∃ t1 t2, l = t1 ++ a :: t2 ∧ p a = true ∧ ∀ x ∈ t1, p x = false := by
  intro l
  induction l with
  | nil => intro a h; cases h
  | cons x xs ih =>
    intro a h
    by_cases hx : p x = true
    · rw [List.find?_cons_of_pos _ hx] at h
      injection h with he
      subst he
      exact ⟨[], xs, rfl, hx, fun y hy => absurd hy (List.not_mem_nil y)⟩
    · have hxf : p x = false := by
        cases hv : p x
        · rfl
        · exact absurd hv hx
      rw [List.find?_cons_of_neg _ hx] at h
      obtain ⟨t1, t2, heq, hpa, hprev⟩ := ih a h
      refine ⟨x :: t1, t2, by rw [heq]; rfl, hpa, ?_⟩
      intro y hy
      rcases List.mem_cons.mp hy with rfl | hmem
      · exact hxf
      · exact hprev y hmem

/-- Aggregation of a single generic record, with the weight kept
    symbolic so that no rational arithmetic needs to be evaluated. -/
theorem calc_single_generic (nm ol cl src : List Char) (g : Bool) (w : ℚ)
    (hg : startswith_generic nm = true)
    (hw : lookupQ generic_wrvus (strip_generic nm) = some w) :
    calculate_wrvus [⟨nm, ol, cl, g, src⟩] =
      some ([⟨nm, 1, w, w, chs "GENERIC", true⟩], 1, w, 1) := by
  show calc_loop [(nm, 1)] = _
  simp only [calc_loop, hg, if_true, hw, Option.getD_some]
  norm_num

/-- Aggregation of a single catalog record, with the entry kept
    symbolic so that no rational arithmetic needs to be evaluated. -/
theorem calc_single_catalog (nm ol cl src : List Char) (g : Bool) (e : ProcEntry)
    (hg : startswith_generic nm = false)
    (he : lookupE procedure_db nm = some e) :
    calculate_wrvus [⟨nm, ol, cl, g, src⟩] =
      some ([⟨nm, 1, e.wrvu, e.wrvu, e.cpt, false⟩], 1, e.wrvu, 0) := by
  show calc_loop [(nm, 1)] = _
  simp only [calc_loop, hg, Bool.false_eq_true, if_false, he]
  norm_num

/-- C8: the generic classifier returns the first modality, in the fixed
    table order, one of whose patterns occurs in the cleaned line, and
    when the catalog selects no entry the matcher emits a record with
    is_generic true and identity GENERIC followed by that modality; in
    particular ULTRASOUND GALLBLADDER matches no catalog entry, yields
    identity GENERIC US and is aggregated at the generic US weight. -/
theorem generic_fallback_first_modality :
    (∀ (line src m : List Char), 5 ≤ line.length →
      best_match (sortByLenDesc dbKeys) (clean_pacs_text line) = none →
      try_generic_match (clean_pacs_text line) = some m →
      (∃ pats t1 t2, modality_patterns = t1 ++ (m, pats) :: t2 ∧
        pats.any (fun pat => containsSub pat (upperL (clean_pacs_text line))) = true ∧
        ∀ mp ∈ t1,
          mp.2.any (fun pat => containsSub pat (upperL (clean_pacs_text line))) = false) ∧
      process_line src line =
        some ⟨chs "GENERIC " ++ m, line, clean_pacs_text line, true, src⟩) ∧
    (find_procedures_in_reconstructed_text [chs "ULTRASOUND GALLBLADDER"] [] =
      [⟨chs "GENERIC US", chs "ULTRASOUND GALLBLADDER",
        chs "ULTRASOUND GALLBLADDER", true, []⟩] ∧
     calculate_wrvus [⟨chs "GENERIC US", chs "ULTRASOUND GALLBLADDER",
        chs "ULTRASOUND GALLBLADDER", true, []⟩] =
       some ([⟨chs "GENERIC US", 1, 0.67, 0.67, chs "GENERIC", true⟩], 1, 0.67, 1)) := by
  constructor
  · intro line src m h5 hbm hg
    have hne : ¬(line = [] ∨ line.length < 5) := by
      rintro (rfl | hl)
      · simp at h5
      · omega
    constructor
    · simp only [try_generic_match] at hg
      rcases hfind : modality_patterns.find?
          (fun mp => mp.2.any (fun pat => containsSub pat (upperL (clean_pacs_text line))))
        with _ | mp
      · rw [hfind] at hg; cases hg
      · rw [hfind] at hg
        have hm : mp.1 = m := by simpa using hg
        obtain ⟨t1, t2, heq, hpa, hprev⟩ := find?_split _ _ _ hfind
        refine ⟨mp.2, t1, t2, ?_, by simpa using hpa, hprev⟩
        rw [← hm, Prod.mk.eta]
        exact heq
    · simp only [process_line, match_line]
      rw [if_neg hne, hbm, hg]
  · constructor
    · decide
    · exact calc_single_generic (chs "GENERIC US") (chs "ULTRASOUND GALLBLADDER")
        (chs "ULTRASOUND GALLBLADDER") [] true 0.67 (by decide) rfl

/-- Witness for C8 at the ULTRASOUND GALLBLADDER line. -/
theorem generic_fallback_first_modality_witness :
    (∃ pats t1 t2, modality_patterns = t1 ++ (chs "US", pats) :: t2 ∧
      pats.any (fun pat =>
        containsSub pat (upperL (clean_pacs_text (chs "ULTRASOUND GALLBLADDER")))) = true ∧
      ∀ mp ∈ t1, mp.2.any (fun pat =>
        containsSub pat (upperL (clean_pacs_text (chs "ULTRASOUND GALLBLADDER")))) = false) ∧
    process_line [] (chs "ULTRASOUND GALLBLADDER") =
      some ⟨chs "GENERIC " ++ chs "US", chs "ULTRASOUND GALLBLADDER",
        clean_pacs_text (chs "ULTRASOUND GALLBLADDER"), true, []⟩ :=
  generic_fallback_first_modality.1 (chs "ULTRASOUND GALLBLADDER") [] (chs "US")
    (by decide) (by decide) (by decide)

theorem bump_sum (nm : List Char) : ∀ cs, sumCounts (bump cs nm) = sumCounts cs + 1 := by
  intro cs
  induction cs with
  | nil => rfl
  | cons kc rest ih =>
    obtain ⟨k, c⟩ := kc
    simp only [bump]
    by_cases hk : k = nm
    · rw [if_pos hk]
      simp only [sumCounts]
      omega
    · rw [if_neg hk]
      simp only [sumCounts, ih]
      omega

theorem bump_wsum (nm : List Char) : ∀ cs, wsumCounts (bump cs nm) = wsumCounts cs + unit_wrvu nm := by
  intro cs
  induction cs with
  | nil =>
    simp only [bump, wsumCounts, sumCounts]
    norm_num
  | cons kc rest ih =>
    obtain ⟨k, c⟩ := kc
    simp only [bump]
    by_cases hk : k = nm
    · rw [if_pos hk]
      simp only [wsumCounts, hk]
      push_cast
      ring
    · rw [if_neg hk]
      simp only [wsumCounts, ih]
      ring

theorem bump_keys (nm : List Char) :
    ∀ cs k, k ∈ (bump cs nm).map (fun kc => kc.1) → k ∈ cs.map (fun kc => kc.1) ∨ k = nm := by
  intro cs
  induction cs with
  | nil =>
    intro k h
    simp only [bump, List.map_cons, List.map_nil, List.mem_singleton] at h
    exact Or.inr h
  | cons kc rest ih =>
    intro k h
    obtain ⟨kk, c⟩ := kc
    simp only [bump] at h
    by_cases hk : kk = nm
    · rw [if_pos hk] at h
      simp only [List.map_cons, List.mem_cons] at h
      rcases h with h1 | h2
      · exact Or.inl (by simp [h1])
      · exact Or.inl (by simp [h2])
    · rw [if_neg hk] at h
      simp only [List.map_cons, List.mem_cons] at h
      rcases h with h1 | h2
      · exact Or.inl (by simp [h1])
      · rcases ih k h2 with h3 | h4
        · exact Or.inl (by simp [h3])
        · exact Or.inr h4

theorem counts_fold_sum : ∀ (procs : List MatchRecord) (cs : List (List Char × Nat)),
    sumCounts (procs.foldl (fun a r => bump a r.procedure) cs) = sumCounts cs + procs.length := by
  intro procs
  induction procs with
  | nil => intro cs; simp
  | cons r rest ih =>
    intro cs
    rw [List.foldl_cons, ih (bump cs r.procedure), bump_sum]
    simp only [List.length_cons]
    omega

theorem counts_fold_wsum : ∀ (procs : List MatchRecord) (cs : List (List Char × Nat)),
    wsumCounts (procs.foldl (fun a r => bump a r.procedure) cs) =
      wsumCounts cs + (procs.map (fun r => unit_wrvu r.procedure)).sum := by
  intro procs
  induction procs with
  | nil => intro cs; simp
  | cons r rest ih =>
    intro cs
    rw [List.foldl_cons, ih (bump cs r.procedure), bump_wsum]
    simp only [List.map_cons, List.sum_cons]
    ring

theorem counts_fold_keys : ∀ (procs : List MatchRecord) (cs : List (List Char × Nat)) (k : List Char),
    k ∈ (procs.foldl (fun a r => bump a r.procedure) cs).map (fun kc => kc.1) →
      k ∈ cs.map (fun kc => kc.1) ∨ ∃ r ∈ procs, r.procedure = k := by
  intro procs
  induction procs with
  | nil => intro cs k h; exact Or.inl h
  | cons r rest ih =>
    intro cs k h
    rw [List.foldl_cons] at h
    rcases ih (bump cs r.procedure) k h with h1 | ⟨r2, hr2, hrp⟩
    · rcases bump_keys r.procedure cs k h1 with h2 | h3
      · exact Or.inl h2
      · exact Or.inr ⟨r, List.mem_cons_self _ _, h3.symm⟩
    · exact Or.inr ⟨r2, List.mem_cons_of_mem _ hr2, hrp⟩

theorem calc_loop_spec : ∀ cs : List (List Char × Nat),
    (∀ kc ∈ cs, known_identity kc.1 = true) →
    ∃ rows gc, calc_loop cs = some (rows, sumCounts cs, wsumCounts cs, gc) ∧
      (rows.map (fun ro => ro.count)).sum = sumCounts cs ∧
      (rows.map (fun ro => ro.wrvu_each * (ro.count : ℚ))).sum = wsumCounts cs := by
  intro cs
  induction cs with
  | nil => intro _; exact ⟨[], 0, rfl, rfl, rfl⟩
  | cons kc rest ih =>
    intro h
    obtain ⟨nm, count⟩ := kc
    obtain ⟨rows, gc, hloop, hsum, hws⟩ := ih (fun kc2 hk => h kc2 (List.mem_cons_of_mem _ hk))
    have hknown : known_identity nm = true := h (nm, count) (List.mem_cons_self _ _)
    by_cases hg : startswith_generic nm = true
    · refine ⟨⟨nm, count, (lookupQ generic_wrvus (strip_generic nm)).getD 1,
        (lookupQ generic_wrvus (strip_generic nm)).getD 1 * (count : ℚ),
        chs "GENERIC", true⟩ :: rows, gc + count, ?_, ?_, ?_⟩
      · simp only [calc_loop, hg, if_true, hloop, sumCounts, wsumCounts, unit_wrvu]
      · simp only [List.map_cons, List.sum_cons, hsum, sumCounts]
        omega
      · simp only [List.map_cons, List.sum_cons, hws, wsumCounts, unit_wrvu, hg, if_true]
        ring
    · have hgg : startswith_generic nm = false := by
        cases hv : startswith_generic nm
        · rfl
        · exact absurd hv hg
      have hsome : (lookupE procedure_db nm).isSome = true := by
        simp only [known_identity, Bool.or_eq_true, hgg, Bool.false_eq_true, false_or] at hknown
        exact hknown
      obtain ⟨e, he⟩ := Option.isSome_iff_exists.mp hsome
      refine ⟨⟨nm, count, e.wrvu, e.wrvu * (count : ℚ), e.cpt, false⟩ :: rows, gc, ?_, ?_, ?_⟩
      · simp only [calc_loop, hgg, Bool.false_eq_true, if_false, he, hloop, sumCounts,
          wsumCounts, unit_wrvu, Option.map_some', Option.getD_some]
      · simp only [List.map_cons, List.sum_cons, hsum, sumCounts]
        omega
      · simp only [List.map_cons, List.sum_cons, hws, wsumCounts, unit_wrvu, hgg,
          Bool.false_eq_true, if_false, he, Option.map_some', Option.getD_some]
        ring

/-- C1: aggregation conservation.  For every list of match records whose
    identities the aggregator can price, the aggregator succeeds; the
    per-identity counts in the result sum to the number of input
    records, total_exams equals that same sum, and total_wrvus equals
    the sum over the input records of the per-unit weight (taken from
    the catalog for non-generic identities and from the generic weight
    table with default 1 for generic identities), equivalently the sum
    over identities of per-unit weight times count. -/
theorem calculate_wrvus_conservation (procs : List MatchRecord)
    (h : ∀ r ∈ procs, known_identity r.procedure = true) :
    ∃ rows te tw gc, calculate_wrvus procs = some (rows, te, tw, gc) ∧
      (rows.map (fun ro => ro.count)).sum = procs.length ∧
      te = procs.length ∧
      tw = (procs.map (fun r => unit_wrvu r.procedure)).sum ∧
      tw = (rows.map (fun ro => ro.wrvu_each * (ro.count : ℚ))).sum := by
  have hkeys : ∀ kc ∈ procs.foldl (fun a r => bump a r.procedure) [],
      known_identity kc.1 = true := by
    intro kc hkc
    have hmem : kc.1 ∈ (procs.foldl (fun a r => bump a r.procedure) []).map (fun e => e.1) :=
      List.mem_map_of_mem _ hkc
    rcases counts_fold_keys procs [] kc.1 hmem with h1 | ⟨r, hr, hrp⟩
    · simp at h1
    · rw [← hrp]; exact h r hr
  obtain ⟨rows, gc, hloop, hsum, hws⟩ := calc_loop_spec _ hkeys
  have hS : sumCounts (procs.foldl (fun a r => bump a r.procedure) []) = procs.length := by
    have hh := counts_fold_sum procs []
    simpa [sumCounts] using hh
  have hW : wsumCounts (procs.foldl (fun a r => bump a r.procedure) []) =
      (procs.map (fun r => unit_wrvu r.procedure)).sum := by
    have hh := counts_fold_wsum procs []
    simpa [wsumCounts] using hh
  exact ⟨rows, _, _, gc, hloop, hsum.trans hS, hS, hW, hws.symm⟩

/-- Witness for C1 on a two-record list with one catalog identity and
    one generic identity. -/
theorem calculate_wrvus_conservation_witness :
    ∃ rows te tw gc,
      calculate_wrvus [⟨chs "US RENAL", [], [], false, []⟩,
        ⟨chs "GENERIC XR", [], [], true, []⟩] = some (rows, te, tw, gc) ∧
      (rows.map (fun ro => ro.count)).sum =
        ([⟨chs "US RENAL", [], [], false, []⟩,
          ⟨chs "GENERIC XR", [], [], true, []⟩] : List MatchRecord).length ∧
      te = ([⟨chs "US RENAL", [], [], false, []⟩,
          ⟨chs "GENERIC XR", [], [], true, []⟩] : List MatchRecord).length ∧
      tw = (([⟨chs "US RENAL", [], [], false, []⟩,
          ⟨chs "GENERIC XR", [], [], true, []⟩] : List MatchRecord).map
            (fun r => unit_wrvu r.procedure)).sum ∧
      tw = (rows.map (fun ro => ro.wrvu_each * (ro.count : ℚ))).sum :=
  calculate_wrvus_conservation _ (by decide)

/-- C2: Scenario A end to end.  Reconstructing the three raw lines
    CT CHEST, WITH CONTRAST, 01-JAN-2024 yields exactly one line;
    matching it emits exactly one non-generic record with the catalog
    identity CT CHEST WITH CONTRAST; aggregating that record reports
    count 1 and total weight 1.24. -/
theorem scenario_A_end_to_end :
    reconstruct_procedure_lines (chs "CT CHEST\nWITH CONTRAST\n01-JAN-2024") =
      [chs "CT CHEST WITH CONTRAST 01-JAN-2024"] ∧
    find_procedures_in_reconstructed_text [chs "CT CHEST WITH CONTRAST 01-JAN-2024"] [] =
      [⟨chs "CT CHEST WITH CONTRAST", chs "CT CHEST WITH CONTRAST 01-JAN-2024",
        chs "CT CHEST WITH CONTRAST 01 JAN 2024", false, []⟩] ∧
    calculate_wrvus [⟨chs "CT CHEST WITH CONTRAST", chs "CT CHEST WITH CONTRAST 01-JAN-2024",
        chs "CT CHEST WITH CONTRAST 01 JAN 2024", false, []⟩] =
      some ([⟨chs "CT CHEST WITH CONTRAST", 1, 1.24, 1.24, chs "71260", false⟩], 1, 1.24, 0) := by
  refine ⟨by decide, by decide, ?_⟩
  exact calc_single_catalog (chs "CT CHEST WITH CONTRAST")
    (chs "CT CHEST WITH CONTRAST 01-JAN-2024") (chs "CT CHEST WITH CONTRAST 01 JAN 2024") []
    false ⟨chs "71260", 1.24⟩ (by decide) rfl
